import Mathlib

/-!
# A verification development for `list.h`

`list.h` implements a doubly linked list `List<T>` with raw `ListNode<T>*`
links, an `Iterator` cursor and the usual push / pop / insert / erase /
clear / reverse operations.

The embedding is shallow.  Memory is an explicit heap of node cells, a
pointer is `Option Nat` (`none` is `nullptr`), and every member function is
a function from the heap and the list object to a result in `Except Fault`.
Dereferencing `nullptr` or a deleted node is undefined behaviour in C++; the
model reports it as a `Fault`.  Loops and the one recursive operator carry a
fuel argument, and `Fault.diverged` is what an exhausted fuel returns.
-/

namespace ListH

/-- How an execution can fail to produce a value. -/
inductive Fault where
  /-- A `nullptr` was dereferenced. -/
  | nullDeref
  /-- A pointer to a deleted (or never allocated) node was dereferenced or deleted. -/
  | dangling
  /-- `std::terminate()` was called. -/
  | terminated
  /-- The fuel ran out before the computation returned. -/
  | diverged
  deriving DecidableEq, Repr

/-- A raw `ListNode<T>*`: `none` is `nullptr`, `some a` is the address `a`. -/
abbrev Ptr := Option Nat

/-- The class `List<T>::ListNode`: the element and the two links, both `nullptr` by default. -/
structure ListNode (T : Type) where
  data : T
  next : Ptr := none
  prev : Ptr := none
  deriving DecidableEq, Repr

/-- The free store.  Cell `a` holds the node at address `a`, or `none` once it
has been deleted.  Addresses at or beyond `cells.length` were never handed out. -/
structure Heap (T : Type) where
  cells : List (Option (ListNode T))
  deriving DecidableEq, Repr

/-- Arithmetic on `std::size_t` is modulo this value (a 64-bit target is assumed). -/
def SIZE_MOD : Nat := 2 ^ 64

namespace Heap

variable {T : Type}

/-- The node stored at address `a`, if that address is live. -/
def read (h : Heap T) (a : Nat) : Option (ListNode T) :=
  (h.cells.get? a).join

/-- Overwrite the cell at address `a`. -/
def write (h : Heap T) (a : Nat) (c : Option (ListNode T)) : Heap T :=
  ⟨h.cells.set a c⟩

/-- Dereference `p` for reading (`p->field`). -/
def load (h : Heap T) (p : Ptr) : Except Fault (ListNode T) :=
  match p with
  | none => .error .nullDeref
  | some a =>
    match h.read a with
    | none => .error .dangling
    | some nd => .ok nd

/-- The assignment `p->next = q`. -/
def setNext (h : Heap T) (p q : Ptr) : Except Fault (Heap T) :=
  match p with
  | none => .error .nullDeref
  | some a =>
    match h.read a with
    | none => .error .dangling
    | some nd => .ok (h.write a (some { nd with next := q }))

/-- The assignment `p->prev = q`. -/
def setPrev (h : Heap T) (p q : Ptr) : Except Fault (Heap T) :=
  match p with
  | none => .error .nullDeref
  | some a =>
    match h.read a with
    | none => .error .dangling
    | some nd => .ok (h.write a (some { nd with prev := q }))

/-- The statement `std::swap(p->next, p->prev)`. -/
def swapLinks (h : Heap T) (p : Ptr) : Except Fault (Heap T) :=
  match p with
  | none => .error .nullDeref
  | some a =>
    match h.read a with
    | none => .error .dangling
    | some nd => .ok (h.write a (some { nd with next := nd.prev, prev := nd.next }))

/-- The expression `new ListNode<T>(data)`: a fresh address holding the value with
both links `nullptr`. -/
def alloc (h : Heap T) (data : T) : Heap T × Nat :=
  (⟨h.cells ++ [some { data := data }]⟩, h.cells.length)

/-- The statement `delete p`.  Deleting `nullptr` does nothing; deleting a
node that is not live is a fault. -/
def delete (h : Heap T) (p : Ptr) : Except Fault (Heap T) :=
  match p with
  | none => .ok h
  | some a =>
    match h.read a with
    | none => .error .dangling
    | some _ => .ok (h.write a none)

end Heap

/-- The class `List<T>::Iterator`: its single data member `curr`. -/
structure Iterator where
  curr : Ptr := none
  deriving DecidableEq, Repr

/-- The data members of `class List<T>`: `head`, `tail` and `_size`, with their
default member initialisers. -/
structure DList where
  head : Ptr := none
  tail : Ptr := none
  _size : Nat := 0
  deriving DecidableEq, Repr

namespace Iterator

variable {T : Type}

/-- The member `Iterator::operator==`. -/
def eq (a b : Iterator) : Bool :=
  a.curr == b.curr

/-- The member `Iterator::operator!=`, whose body is `return !this->operator!=(rhs);`.
Each unit of fuel pays for one call. -/
def ne : Nat → Iterator → Iterator → Except Fault Bool
  | 0, _, _ => .error .diverged
  | fuel + 1, a, b =>
    match ne fuel a b with
    | .ok r => .ok (!r)
    | .error e => .error e

/-- The member `Iterator::operator++()`, the pre-increment. -/
def inc (mem : Heap T) (it : Iterator) : Except Fault Iterator :=
  match it.curr with
  | none => .ok it
  | some a =>
    match mem.load (some a) with
    | .ok nd => .ok { curr := nd.next }
    | .error e => .error e

/-- The member `Iterator::operator--()`, the pre-decrement. -/
def dec (mem : Heap T) (it : Iterator) : Except Fault Iterator :=
  match it.curr with
  | none => .ok it
  | some a =>
    match mem.load (some a) with
    | .ok nd => .ok { curr := nd.prev }
    | .error e => .error e

/-- The member `Iterator::operator*()`, as its text reads:
`if(curr) return *curr; throw std::terminate();`.  The operand of `return` is `*curr`,
the node itself, although the declared result type is `T&`; C++ accepts that for no
`T`, so no call of the operator compiles.  The model records what the text hands
back, the whole `ListNode<T>`, and not an element. -/
def deref (mem : Heap T) (it : Iterator) : Except Fault (ListNode T) :=
  match it.curr with
  | none => .error .terminated
  | some a => mem.load (some a)

end Iterator

namespace DList

variable {T : Type}

/-- The member `List<T>::begin`. -/
def begin (l : DList) : Iterator := { curr := l.head }

/-- The member `List<T>::end` (`end` is a Lean keyword). -/
def end_ (_l : DList) : Iterator := { curr := none }

/-- The member `List<T>::empty`. -/
def empty (l : DList) : Bool :=
  l._size == 0 || l.head == none

/-- The member `List<T>::size`. -/
def size (l : DList) : Nat := l._size

/-- The member `List<T>::front`. -/
def front (mem : Heap T) (l : DList) : Except Fault T :=
  match mem.load l.head with
  | .ok nd => .ok nd.data
  | .error e => .error e

/-- The member `List<T>::back`. -/
def back (mem : Heap T) (l : DList) : Except Fault T :=
  match mem.load l.tail with
  | .ok nd => .ok nd.data
  | .error e => .error e

/-- The member `List<T>::push_front(T&&)`. -/
def push_front (mem : Heap T) (l : DList) (data : T) : Except Fault (Heap T × DList) := do
  let (mem, n) := mem.alloc data
  let tmp := l.head
  let l := if l.empty then { l with tail := some n } else l
  let mem ← if !l.empty then mem.setPrev tmp (some n) else pure mem
  let l := { l with head := some n }
  let mem ← mem.setNext (some n) tmp
  pure (mem, { l with _size := (l._size + 1) % SIZE_MOD })

/-- The member `List<T>::pop_front`. -/
def pop_front (mem : Heap T) (l : DList) : Except Fault (Heap T × DList) := do
  let tmp := l.head
  let nd ← mem.load tmp
  let l := { l with head := nd.next }
  let mem ← mem.delete tmp
  let l := { l with _size := (l._size + SIZE_MOD - 1) % SIZE_MOD }
  let l := if l.empty then { l with tail := none } else l
  pure (mem, l)

/-- The member `List<T>::push_back(T&&)`. -/
def push_back (mem : Heap T) (l : DList) (data : T) : Except Fault (Heap T × DList) := do
  let (mem, n) := mem.alloc data
  let tmp := l.tail
  let l := if l.empty then { l with head := some n } else l
  let mem ← if !l.empty then mem.setNext tmp (some n) else pure mem
  let l := { l with tail := some n }
  let mem ← mem.setPrev (some n) tmp
  pure (mem, { l with _size := (l._size + 1) % SIZE_MOD })

/-- The member `List<T>::pop_back`. -/
def pop_back (mem : Heap T) (l : DList) : Except Fault (Heap T × DList) := do
  let tmp := l.tail
  let nd ← mem.load tmp
  let l := { l with tail := nd.prev }
  let mem ← mem.delete tmp
  let l := { l with _size := (l._size + SIZE_MOD - 1) % SIZE_MOD }
  let l := if l.empty then { l with head := none } else l
  pure (mem, l)

/-- The member `List<T>::insert`.  The source writes `pos->curr`; it is read as
the cursor's own `curr` member. -/
def insert (mem : Heap T) (l : DList) (pos : Iterator) (data : T) :
    Except Fault (Heap T × DList × Iterator) := do
  let (mem, n) := mem.alloc data
  let l := { l with _size := (l._size + 1) % SIZE_MOD }
  if pos.curr == l.head then
    let mem ← mem.setNext (some n) l.head
    let mem ← mem.setPrev l.head (some n)
    let l := { l with head := some n }
    pure (mem, l, { pos with curr := some n })
  else if pos.curr == none then
    let mem ← mem.setNext l.tail (some n)
    let mem ← mem.setPrev (some n) l.tail
    let l := { l with tail := some n }
    pure (mem, l, { pos with curr := some n })
  else
    let c ← mem.load pos.curr
    let prev := c.prev
    let mem ← mem.setNext prev (some n)
    let mem ← mem.setPrev (some n) prev
    let mem ← mem.setNext (some n) pos.curr
    let mem ← mem.setPrev pos.curr (some n)
    pure (mem, l, { pos with curr := some n })

/-- The member `List<T>::erase(Iterator)`. -/
def erase (mem : Heap T) (l : DList) (pos : Iterator) :
    Except Fault (Heap T × DList × Iterator) := do
  let c ← mem.load pos.curr
  let prev := c.prev
  let next := c.next
  let l := { l with _size := (l._size + SIZE_MOD - 1) % SIZE_MOD }
  if pos.curr == l.tail then
    let mem ← mem.setNext prev none
    let l := { l with tail := prev }
    let mem ← mem.delete pos.curr
    pure (mem, l, { pos with curr := none })
  else
    let (mem, l) ←
      if pos.curr == l.head then
        pure (mem, { l with head := next })
      else do
        let mem ← mem.setNext prev next
        pure (mem, l)
    let mem ← mem.setPrev next prev
    let mem ← mem.delete pos.curr
    pure (mem, l, { pos with curr := next })

/-- The member `List<T>::erase(Iterator, Iterator)`.  One unit of fuel pays for
one evaluation of the loop condition and what it calls. -/
def erase_range : Nat → Heap T → DList → Iterator → Iterator →
    Except Fault (Heap T × DList × Iterator)
  | 0, _, _, _, _ => .error .diverged
  | fuel + 1, mem, l, first, last => do
    let c ← Iterator.ne fuel first last
    if c then
      let (mem, l, first) ← erase mem l first
      erase_range fuel mem l first last
    else
      pure (mem, l, first)

/-- The loop `while(head) { head = head->next; delete curr; curr = head; }` of
`List<T>::clear`, on the pair `(head, curr)`. -/
def clear_loop : Nat → Heap T → Ptr → Ptr → Except Fault (Heap T × Ptr)
  | 0, _, _, _ => .error .diverged
  | fuel + 1, mem, head, curr =>
    match head with
    | none => .ok (mem, head)
    | some _ => do
      let nd ← mem.load head
      let head := nd.next
      let mem ← mem.delete curr
      clear_loop fuel mem head head

/-- The member `List<T>::clear`. -/
def clear (fuel : Nat) (mem : Heap T) (l : DList) : Except Fault (Heap T × DList) :=
  if l.empty then pure (mem, l)
  else do
    let (mem, head) ← clear_loop fuel mem l.head l.head
    pure (mem, { l with head := head, _size := 0 })

/-- The loop `while(curr != nullptr) { std::swap(curr->next, curr->prev); curr = curr->next; }`
of `List<T>::reverse`. -/
def reverse_loop : Nat → Heap T → Ptr → Except Fault (Heap T)
  | 0, _, _ => .error .diverged
  | fuel + 1, mem, curr =>
    match curr with
    | none => .ok mem
    | some _ => do
      let mem ← mem.swapLinks curr
      let nd ← mem.load curr
      reverse_loop fuel mem nd.next

/-- The member `List<T>::reverse`. -/
def reverse (fuel : Nat) (mem : Heap T) (l : DList) : Except Fault (Heap T × DList) := do
  let mem ← reverse_loop fuel mem l.tail
  pure (mem, l)

/-- The friend function `swap(List<T>&, List<T>&)`; the result is the new `(lhs, rhs)`. -/
def swap (lhs rhs : DList) : DList × DList :=
  ({ head := rhs.head, tail := rhs.tail, _size := rhs._size },
   { head := lhs.head, tail := lhs.tail, _size := lhs._size })

/-- The loop `for(auto it = other.begin(); it != other.end(); ++it) push_back(*it);`
of the copy constructor.  `*it` is read as the element of the node. -/
def copy_loop : Nat → Heap T → DList → Iterator → DList → Except Fault (Heap T × DList)
  | 0, _, _, _, _ => .error .diverged
  | fuel + 1, mem, this, it, other => do
    let c ← Iterator.ne fuel it other.end_
    if c then
      let nd ← it.deref mem
      let (mem, this) ← this.push_back mem nd.data
      let it ← it.inc mem
      copy_loop fuel mem this it other
    else
      pure (mem, this)

/-- The copy constructor `List<T>::List(const List&)`. -/
def copy_construct (fuel : Nat) (mem : Heap T) (other : DList) :
    Except Fault (Heap T × DList) :=
  copy_loop fuel mem { head := none, tail := none, _size := 0 } other.begin other

/-- The copy assignment `List<T>::operator=(List)`: the by-value parameter is
copy-constructed from the argument, swapped with `*this` and destroyed. -/
def copy_assign (fuel : Nat) (mem : Heap T) (this arg : DList) :
    Except Fault (Heap T × DList) := do
  let (mem, other) ← copy_construct fuel mem arg
  let (this, other) := swap this other
  let (mem, _) ← clear fuel mem other
  pure (mem, this)

/-- The move constructor `List<T>::List(List&&)`; the result is `(*this, other)`. -/
def move_construct (other : DList) : DList × DList :=
  swap {} other

/-- The elements met by a cursor that starts at `it` and is stepped with
`operator++` until it compares equal (`operator==`) to `last`; each element is
read as `it->data`.  The loop idiom of the source tests with `operator!=`, which is
modelled on its own as `Iterator.ne`. -/
def traverse : Nat → Heap T → Iterator → Iterator → Except Fault (List T)
  | 0, _, _, _ => .error .diverged
  | fuel + 1, mem, it, last =>
    if it.eq last then .ok []
    else do
      let nd ← mem.load it.curr
      let it ← it.inc mem
      let rest ← traverse fuel mem it last
      pure (nd.data :: rest)

/-- The traversal of a list from `begin()` to `end()`. -/
def toList (fuel : Nat) (mem : Heap T) (l : DList) : Except Fault (List T) :=
  traverse fuel mem l.begin l.end_

/-- The loop `for(auto it = begin(); it != end(); ++it) std::cout << it->data` of
`List<T>::print`, with the elements written to the stream as its result.  One unit of
fuel pays for one evaluation of the loop condition and what it calls. -/
def print_loop : Nat → Heap T → DList → Iterator → Except Fault (List T)
  | 0, _, _, _ => .error .diverged
  | fuel + 1, mem, l, it => do
    let c ← Iterator.ne fuel it l.end_
    if c then
      let nd ← mem.load it.curr
      let it ← it.inc mem
      let rest ← print_loop fuel mem l it
      pure (nd.data :: rest)
    else
      pure []

/-- The member `List<T>::print`. -/
def print (fuel : Nat) (mem : Heap T) (l : DList) : Except Fault (List T) :=
  print_loop fuel mem l l.begin

/-- The move assignment `List<T>::operator=(List&&)`, whose body is
`swap(*this, List(other))`: the named parameter `other` is an lvalue, so `List(other)`
is a copy-constructed temporary; it is swapped with `*this` and destroyed.  The
result is `(*this, other)`. -/
def move_assign (fuel : Nat) (mem : Heap T) (this other : DList) :
    Except Fault (Heap T × DList × DList) := do
  let (mem, tmp) ← copy_construct fuel mem other
  let (this, tmp) := swap this tmp
  let (mem, _) ← clear fuel mem tmp
  pure (mem, this, other)

/-- The destructor `List<T>::~List`, whose body is `clear();`.  The list object is
gone afterwards; the heap is what remains. -/
def destroy (fuel : Nat) (mem : Heap T) (l : DList) : Except Fault (Heap T) := do
  let (mem, _) ← clear fuel mem l
  pure mem

/-- The expression `erase(insert(pos, data))`. -/
def erase_insert (mem : Heap T) (l : DList) (pos : Iterator) (data : T) :
    Except Fault (Heap T × DList × Iterator) := do
  let (mem, l, it) ← insert mem l pos data
  erase mem l it

/-- Two calls of `reverse()` in a row. -/
def reverse_twice (fuel : Nat) (mem : Heap T) (l : DList) :
    Except Fault (Heap T × DList) := do
  let (mem, l) ← reverse fuel mem l
  reverse fuel mem l

end DList

/-! ## The list invariants -/

section Invariants

variable {T : Type}

/-- A doubly linked segment: starting at `p`, whose predecessor link is `pv`,
the nodes at the addresses of `ns` hold the values of `ns`, each `next` leads
to the following node and each `prev` back to the preceding one, and the last
`next` is `q`. -/
def Seg (mem : Heap T) : Ptr → Ptr → List (Nat × T) → Ptr → Prop
  | _, p, [], q => p = q
  | pv, p, (a, x) :: ns, q =>
    p = some a ∧ ∃ nx, mem.read a = some ⟨x, nx, pv⟩ ∧ Seg mem (some a) nx ns q

/-- The address of the last node of `ns`, or `nullptr` when there is none. -/
def lastPtr (ns : List (Nat × T)) : Ptr :=
  ns.getLast?.map Prod.fst

/-- The `prev` link of the node that follows the nodes `ms` in a segment whose
predecessor link is `pv`: the last node of `ms`, or `pv` when `ms` is empty. -/
def prevOf (pv : Ptr) (ms : List (Nat × T)) : Ptr :=
  match lastPtr ms with
  | some s => some s
  | none => pv

/-- The list invariants (a)-(d), with the chain of nodes `ns` made explicit:
the nodes reachable from `head` by `next` are exactly `ns`, ending in
`nullptr`, with mutually consistent `prev` links and `head->prev == nullptr`;
`tail` is the last of them (`nullptr` when there is none); `_size` is their
number, which as a `std::size_t` is below `SIZE_MOD`. -/
structure Rep (mem : Heap T) (l : DList) (ns : List (Nat × T)) : Prop where
  chain : Seg mem none l.head ns none
  tail_eq : l.tail = lastPtr ns
  size_eq : l._size = ns.length
  size_lt : ns.length < SIZE_MOD

/-- The elements of a chain, in order. -/
def values (ns : List (Nat × T)) : List T :=
  ns.map Prod.snd

/-- A call of `push_front` or `push_back`. -/
inductive PushOp (T : Type) where
  | front (v : T)
  | back (v : T)
  deriving DecidableEq, Repr

/-- Run one push on a heap and a list. -/
def PushOp.run (mem : Heap T) (l : DList) : PushOp T → Except Fault (Heap T × DList)
  | .front v => l.push_front mem v
  | .back v => l.push_back mem v

/-- Run a sequence of pushes, first to last. -/
def runPushes : List (PushOp T) → Heap T → DList → Except Fault (Heap T × DList)
  | [], mem, l => .ok (mem, l)
  | op :: ops, mem, l =>
    match op.run mem l with
    | .ok (mem, l) => runPushes ops mem l
    | .error e => .error e

/-- The sequence a run of pushes is expected to build on top of `acc`:
`push_front` prepends and `push_back` appends. -/
def pushModel : List (PushOp T) → List T → List T
  | [], acc => acc
  | .front v :: ops, acc => pushModel ops (v :: acc)
  | .back v :: ops, acc => pushModel ops (acc ++ [v])

/-- The heap that `push_back(1)`, `push_back(2)`, `push_back(3)` build from nothing. -/
def mem123 : Heap Nat :=
  ⟨[some ⟨1, some 1, none⟩, some ⟨2, some 2, some 0⟩, some ⟨3, none, some 1⟩]⟩

/-- The list object of the list `[1, 2, 3]` in `mem123`. -/
def list123 : DList := { head := some 0, tail := some 2, _size := 3 }

/-- The heap that `push_back(1)`, `push_back(2)` build from nothing. -/
def mem12 : Heap Nat :=
  ⟨[some ⟨1, some 1, none⟩, some ⟨2, none, some 0⟩]⟩

/-- The list object of the list `[1, 2]` in `mem12`. -/
def list12 : DList := { head := some 0, tail := some 1, _size := 2 }

/-- The heap that `push_back(1)` builds from nothing. -/
def mem1 : Heap Nat := ⟨[some ⟨1, none, none⟩]⟩

/-- The list object of the list `[1]` in `mem1`. -/
def list1 : DList := { head := some 0, tail := some 0, _size := 1 }

end Invariants

/-! ## Facts about the heap -/

section HeapFacts

variable {T : Type}

theorem Heap.read_lt {h : Heap T} {a : Nat} {nd : ListNode T} (hr : h.read a = some nd) :
    a < h.cells.length := by
  unfold Heap.read at hr
  by_contra hlt
  rw [List.get?_eq_none.mpr (Nat.le_of_not_lt hlt)] at hr
  simp at hr

theorem Heap.read_write (h : Heap T) (a b : Nat) (c : Option (ListNode T)) :
    (h.write a c).read b = if b = a ∧ a < h.cells.length then c else h.read b := by
  unfold Heap.read Heap.write
  by_cases hab : b = a
  · subst hab
    by_cases hlt : b < h.cells.length
    · simp [hlt, List.getElem?_set]
    · have h1 : (h.cells.set b c)[b]? = none :=
        List.getElem?_eq_none (by simp; omega)
      have h2 : h.cells[b]? = none := List.getElem?_eq_none (by omega)
      simp [hlt, h1, h2]
  · have : a ≠ b := fun e => hab e.symm
    simp [hab, List.getElem?_set, this]

theorem Heap.read_write_same {h : Heap T} {a : Nat} {nd : ListNode T} (c : Option (ListNode T))
    (hr : h.read a = some nd) : (h.write a c).read a = c := by
  rw [Heap.read_write]; simp [Heap.read_lt hr]

theorem Heap.read_write_other (h : Heap T) {a b : Nat} (c : Option (ListNode T))
    (hne : b ≠ a) : (h.write a c).read b = h.read b := by
  rw [Heap.read_write]; simp [hne]

theorem Heap.write_length (h : Heap T) (a : Nat) (c : Option (ListNode T)) :
    (h.write a c).cells.length = h.cells.length := by
  simp [Heap.write]

theorem Heap.read_alloc (h : Heap T) (d : T) (b : Nat) :
    (h.alloc d).1.read b = if b = h.cells.length then some { data := d } else h.read b := by
  unfold Heap.read Heap.alloc
  by_cases hb : b = h.cells.length
  · subst hb; simp
  · simp only [hb, if_false]
    by_cases hlt : b < h.cells.length
    · simp [List.getElem?_append_left hlt]
    · have h1 : (h.cells ++ [some ({ data := d } : ListNode T)])[b]? = none :=
        List.getElem?_eq_none (by simp; omega)
      have h2 : h.cells[b]? = none := List.getElem?_eq_none (by omega)
      simp [h1, h2]

theorem Heap.alloc_snd (h : Heap T) (d : T) : (h.alloc d).2 = h.cells.length := rfl

end HeapFacts

/-! ## Facts about segments -/

section SegFacts

variable {T : Type}

theorem Seg.frame {mem mem2 : Heap T} : ∀ {ns : List (Nat × T)} {pv p q : Ptr},
    (∀ a ∈ ns.map Prod.fst, mem2.read a = mem.read a) → Seg mem pv p ns q → Seg mem2 pv p ns q
  | [], _, _, _, _, h => h
  | (a, x) :: ns, pv, p, q, hf, h => by
    obtain ⟨hp, nx, hr, hs⟩ := h
    refine ⟨hp, nx, ?_, Seg.frame (fun b hb => hf b (by simp [hb])) hs⟩
    rw [hf a (by simp)]; exact hr

theorem Seg.read_mem {mem : Heap T} : ∀ {ns : List (Nat × T)} {pv p q : Ptr},
    Seg mem pv p ns q → ∀ a ∈ ns.map Prod.fst, ∃ nd, mem.read a = some nd
  | [], _, _, _, _, a, ha => by simp at ha
  | (b, x) :: ns, pv, p, q, h, a, ha => by
    obtain ⟨_, nx, hr, hs⟩ := h
    simp only [List.map_cons, List.mem_cons] at ha
    rcases ha with rfl | ha
    · exact ⟨_, hr⟩
    · exact Seg.read_mem hs a ha

theorem Seg.live {mem : Heap T} {ns : List (Nat × T)} {pv p q : Ptr}
    (h : Seg mem pv p ns q) : ∀ a ∈ ns.map Prod.fst, a < mem.cells.length := by
  intro a ha
  obtain ⟨nd, hr⟩ := h.read_mem a ha
  exact Heap.read_lt hr

theorem Seg.det {mem : Heap T} : ∀ {ns ns2 : List (Nat × T)} {pv pv2 p : Ptr},
    Seg mem pv p ns none → Seg mem pv2 p ns2 none → ns = ns2
  | [], [], _, _, _, _, _ => rfl
  | [], (b, y) :: ns2, _, _, p, h1, h2 => by
    obtain ⟨hp, _⟩ := h2
    have : p = none := h1
    rw [this] at hp; cases hp
  | (a, x) :: ns, [], _, _, p, h1, h2 => by
    obtain ⟨hp, _⟩ := h1
    have : p = none := h2
    rw [this] at hp; cases hp
  | (a, x) :: ns, (b, y) :: ns2, _, _, p, h1, h2 => by
    obtain ⟨hp, nx, hr, hs⟩ := h1
    obtain ⟨hp2, nx2, hr2, hs2⟩ := h2
    rw [hp] at hp2
    cases hp2
    rw [hr] at hr2
    cases hr2
    rw [Seg.det hs hs2]

theorem Seg.suffix {mem : Heap T} : ∀ {l1 l2 : List (Nat × T)} {pv p q : Ptr},
    Seg mem pv p (l1 ++ l2) q → ∃ pv2 p2, Seg mem pv2 p2 l2 q
  | [], _, pv, p, _, h => ⟨pv, p, h⟩
  | (a, x) :: l1, _, _, _, _, h => by
    obtain ⟨_, nx, _, hs⟩ := h
    exact Seg.suffix hs

theorem Seg.nodup {mem : Heap T} : ∀ {ns : List (Nat × T)} {pv p : Ptr},
    Seg mem pv p ns none → (ns.map Prod.fst).Nodup
  | [], _, _, _ => by simp
  | (a, x) :: ns, pv, p, h => by
    have h0 := h
    obtain ⟨hp, nx, hr, hs⟩ := h
    rw [List.map_cons, List.nodup_cons]
    refine ⟨?_, Seg.nodup hs⟩
    intro hmem
    obtain ⟨⟨a2, y⟩, hmem2, ha2⟩ := List.mem_map.mp hmem
    simp only at ha2
    subst ha2
    obtain ⟨l1, l2, hsplit⟩ := List.append_of_mem hmem2
    rw [hsplit] at hs h0
    obtain ⟨pv2, p2, hsuf⟩ := Seg.suffix hs
    have hp2 : p2 = some a2 := hsuf.1
    rw [hp2, ← hp] at hsuf
    have := congrArg List.length (Seg.det h0 hsuf)
    simp at this
    omega

theorem traverse_seg {mem : Heap T} : ∀ {ns : List (Nat × T)} {pv p : Ptr} (fuel : Nat),
    Seg mem pv p ns none → ns.length < fuel →
    DList.traverse fuel mem ⟨p⟩ ⟨none⟩ = .ok (values ns)
  | _, _, _, 0, _, hf => by omega
  | [], _, p, fuel + 1, h, _ => by
    have : p = none := h
    subst this
    simp [DList.traverse, Iterator.eq, values]
  | (a, x) :: ns, _, p, fuel + 1, h, hf => by
    obtain ⟨hp, nx, hr, hs⟩ := h
    subst hp
    have ih := traverse_seg fuel hs (by simpa using hf)
    simp [DList.traverse, Iterator.eq, Iterator.inc, Heap.load, hr, ih, values, bind,
      Except.bind, pure, Except.pure]

end SegFacts

/-! ## Pushes preserve the invariants -/

section PushFacts

variable {T : Type}

theorem lastPtr_cons_cons (a b : Nat × T) (ns : List (Nat × T)) :
    lastPtr (a :: b :: ns) = lastPtr (b :: ns) := by
  simp [lastPtr, List.getLast?_cons_cons]

theorem lastPtr_concat (ns : List (Nat × T)) (a : Nat × T) :
    lastPtr (ns ++ [a]) = some a.1 := by
  simp [lastPtr]

theorem size_succ_mod {n : Nat} (h : n + 1 < SIZE_MOD) : (n + 1) % SIZE_MOD = n + 1 :=
  Nat.mod_eq_of_lt h

theorem Heap.read_push (h : Heap T) (c : Option (ListNode T)) (b : Nat) :
    Heap.read ⟨h.cells ++ [c]⟩ b = if b = h.cells.length then c else h.read b := by
  unfold Heap.read
  by_cases hb : b = h.cells.length
  · subst hb; simp
  · simp only [hb, if_false]
    by_cases hlt : b < h.cells.length
    · simp [List.getElem?_append_left hlt]
    · have h1 : (h.cells ++ [c])[b]? = none := List.getElem?_eq_none (by simp; omega)
      have h2 : h.cells[b]? = none := List.getElem?_eq_none (by omega)
      simp [h1, h2]

theorem push_front_rep {mem : Heap T} {l : DList} {ns : List (Nat × T)} (v : T)
    (h : Rep mem l ns) (hlen : ns.length + 1 < SIZE_MOD) :
    ∃ mem2 l2, l.push_front mem v = .ok (mem2, l2) ∧
      Rep mem2 l2 ((mem.cells.length, v) :: ns) := by
  obtain ⟨hc, ht, hs, _⟩ := h
  cases ns with
  | nil =>
    have hh : l.head = none := hc
    simp only [List.length_nil] at hs
    have hr1 : Heap.read ⟨mem.cells ++ [some { data := v }]⟩ mem.cells.length
        = some { data := v } := by
      rw [Heap.read_push]; simp
    simp only [DList.push_front, DList.empty, hs, hh, Heap.alloc, Heap.setNext, hr1, bind,
      Except.bind, pure, Except.pure]
    simp only [beq_self_eq_true, Bool.or_self, if_true, Bool.not_true, Bool.false_eq_true,
      if_false]
    refine ⟨_, _, rfl, ?_⟩
    refine ⟨⟨rfl, none, ?_, rfl⟩, rfl, ?_, by simpa using hlen⟩
    · rw [Heap.read_write_same _ hr1]
    · exact (size_succ_mod hlen).symm
  | cons n0 ms =>
    obtain ⟨a, x⟩ := n0
    obtain ⟨hh, nx, hr, hseg⟩ := hc
    simp only [List.length_cons] at hs
    have hlt : a < mem.cells.length := Heap.read_lt hr
    have hne : a ≠ mem.cells.length := by omega
    have hr1 : Heap.read ⟨mem.cells ++ [some { data := v }]⟩ a = some ⟨x, nx, none⟩ := by
      rw [Heap.read_push]; simp [hne, hr]
    have hr2 : (Heap.write ⟨mem.cells ++ [some { data := v }]⟩ a
        (some ⟨x, nx, some mem.cells.length⟩)).read mem.cells.length = some { data := v } := by
      rw [Heap.read_write_other _ _ (Ne.symm hne), Heap.read_push]; simp
    simp [DList.push_front, DList.empty, hs, hh, Heap.alloc, Heap.setNext, Heap.setPrev,
      hr1, hr2, bind, Except.bind, pure, Except.pure]
    refine ⟨_, _, ⟨rfl, rfl⟩, ?_⟩
    have hnd := Seg.nodup (show Seg mem none (some a) ((a, x) :: ms) none from
      ⟨rfl, nx, hr, hseg⟩)
    rw [List.map_cons, List.nodup_cons] at hnd
    refine ⟨⟨rfl, some a, ?_, rfl, nx, ?_, ?_⟩, ?_, ?_, hlen⟩
    · rw [Heap.read_write_same _ hr2]
    · rw [Heap.read_write_other _ _ hne, Heap.read_write_same _ hr1]
    · refine Seg.frame (fun b hb => ?_) hseg
      have hb1 : b ≠ a := fun e => hnd.1 (e ▸ hb)
      have hb2 : b ≠ mem.cells.length := Nat.ne_of_lt (hseg.live b hb)
      rw [Heap.read_write_other _ _ hb2, Heap.read_write_other _ _ hb1, Heap.read_push]
      simp [hb2]
    · rw [lastPtr_cons_cons]; exact ht
    · simp only [List.length_cons] at hlen ⊢
      exact Nat.mod_eq_of_lt hlen

theorem Seg.read_last {mem : Heap T} : ∀ {ns : List (Nat × T)} {pv p q : Ptr} {t : Nat} {y : T},
    Seg mem pv p (ns ++ [(t, y)]) q → ∃ pv2, mem.read t = some ⟨y, q, pv2⟩
  | [], pv, _, _, _, _, h => by
    obtain ⟨_, nx, hr, hq⟩ := h
    have : nx = _ := hq
    subst this
    exact ⟨pv, hr⟩
  | (a, x) :: ns, _, _, _, _, _, h => by
    obtain ⟨_, nx, _, hs⟩ := h
    exact Seg.read_last hs

theorem Seg.head_some {mem : Heap T} {ns : List (Nat × T)} {pv p q : Ptr}
    (h : Seg mem pv p ns q) (hne : ns ≠ []) : ∃ a, p = some a := by
  cases ns with
  | nil => exact absurd rfl hne
  | cons n0 ms => exact ⟨n0.1, h.1⟩

theorem Seg.snoc {mem mem2 : Heap T} {n : Nat} {x : T} :
    ∀ {ns : List (Nat × T)} {pv p : Ptr} {t : Nat} {y : T},
    Seg mem pv p (ns ++ [(t, y)]) none → ((ns ++ [(t, y)]).map Prod.fst).Nodup →
    n ∉ (ns ++ [(t, y)]).map Prod.fst →
    (∀ b, b ≠ t → b ≠ n → mem2.read b = mem.read b) →
    (∀ pv2, mem.read t = some ⟨y, none, pv2⟩ → mem2.read t = some ⟨y, some n, pv2⟩) →
    mem2.read n = some ⟨x, none, some t⟩ →
    Seg mem2 pv p (ns ++ [(t, y)] ++ [(n, x)]) none
  | [], pv, p, t, y, h, _, _, _, ht, hn => by
    obtain ⟨hp, nx, hr, hq⟩ := h
    have : nx = none := hq
    subst this
    exact ⟨hp, some n, ht pv hr, rfl, none, hn, rfl⟩
  | (a, z) :: ns, pv, p, t, y, h, hnd, hfresh, hother, ht, hn => by
    obtain ⟨hp, nx, hr, hs⟩ := h
    simp only [List.cons_append, List.map_cons, List.nodup_cons, List.mem_cons, not_or] at hnd hfresh
    have hat : a ≠ t := by
      intro e
      apply hnd.1
      rw [e]
      simp
    have han : a ≠ n := fun e => hfresh.1 e.symm
    refine ⟨hp, nx, ?_, Seg.snoc hs hnd.2 hfresh.2 hother ht hn⟩
    rw [hother a hat han]
    exact hr

theorem push_back_rep {mem : Heap T} {l : DList} {ns : List (Nat × T)} (v : T)
    (h : Rep mem l ns) (hlen : ns.length + 1 < SIZE_MOD) :
    ∃ mem2 l2, l.push_back mem v = .ok (mem2, l2) ∧
      Rep mem2 l2 (ns ++ [(mem.cells.length, v)]) := by
  obtain ⟨hc, ht, hs, _⟩ := h
  rcases List.eq_nil_or_concat ns with rfl | ⟨ms, ⟨t, y⟩, hns⟩
  · have hh : l.head = none := hc
    have ht2 : l.tail = none := ht
    simp only [List.length_nil] at hs
    have hr1 : Heap.read ⟨mem.cells ++ [some { data := v }]⟩ mem.cells.length
        = some { data := v } := by
      rw [Heap.read_push]; simp
    simp [DList.push_back, DList.empty, hs, hh, ht2, Heap.alloc, Heap.setPrev, hr1, bind,
      Except.bind, pure, Except.pure]
    refine ⟨_, _, ⟨rfl, rfl⟩, ?_⟩
    refine ⟨⟨rfl, none, ?_, rfl⟩, rfl, ?_, by simpa using hlen⟩
    · rw [Heap.read_write_same _ hr1]
    · exact (size_succ_mod hlen).symm
  · rw [List.concat_eq_append] at hns
    subst hns
    obtain ⟨a, hh⟩ := hc.head_some (by simp)
    obtain ⟨pv2, hr⟩ := hc.read_last
    rw [lastPtr_concat] at ht
    simp only at ht
    have hlt : t < mem.cells.length := Heap.read_lt hr
    have hne : t ≠ mem.cells.length := by omega
    have hr1 : Heap.read ⟨mem.cells ++ [some { data := v }]⟩ t = some ⟨y, none, pv2⟩ := by
      rw [Heap.read_push]; simp [hne, hr]
    have hr2 : (Heap.write ⟨mem.cells ++ [some { data := v }]⟩ t
        (some ⟨y, some mem.cells.length, pv2⟩)).read mem.cells.length = some { data := v } := by
      rw [Heap.read_write_other _ _ (Ne.symm hne), Heap.read_push]; simp
    simp [DList.push_back, DList.empty, hs, hh, ht, Heap.alloc, Heap.setNext, Heap.setPrev,
      hr1, hr2, bind, Except.bind, pure, Except.pure]
    refine ⟨_, _, ⟨rfl, rfl⟩, ?_⟩
    have e : ms ++ [(t, y), (mem.cells.length, v)]
        = ms ++ [(t, y)] ++ [(mem.cells.length, v)] := by simp
    rw [e]
    refine ⟨?_, ?_, ?_, by simpa using hlen⟩
    · rw [hh] at hc
      refine Seg.snoc hc hc.nodup ?_ ?_ ?_ ?_
      · intro hmem
        exact Nat.lt_irrefl _ (hc.live _ hmem)
      · intro b hbt hbn
        rw [Heap.read_write_other _ _ hbn, Heap.read_write_other _ _ hbt, Heap.read_push]
        simp [hbn]
      · intro pv3 hr3
        rw [hr] at hr3
        cases hr3
        rw [Heap.read_write_other _ _ hne, Heap.read_write_same _ hr1]
      · rw [Heap.read_write_same _ hr2]
    · rw [lastPtr_concat]
    · simp only [List.length_append, List.length_singleton] at hlen ⊢
      exact Nat.mod_eq_of_lt hlen

theorem toList_rep {mem : Heap T} {l : DList} {ns : List (Nat × T)} (h : Rep mem l ns)
    (fuel : Nat) (hf : ns.length < fuel) : l.toList fuel mem = .ok (values ns) :=
  traverse_seg fuel h.chain hf

theorem front_rep {mem : Heap T} {l : DList} {a : Nat} {x : T} {ns : List (Nat × T)}
    (h : Rep mem l ((a, x) :: ns)) : l.front mem = .ok x := by
  obtain ⟨hh, nx, hr, _⟩ := h.chain
  simp [DList.front, hh, Heap.load, hr]

theorem back_rep {mem : Heap T} {l : DList} {t : Nat} {y : T} {ms : List (Nat × T)}
    (h : Rep mem l (ms ++ [(t, y)])) : l.back mem = .ok y := by
  obtain ⟨pv2, hr⟩ := h.chain.read_last
  have ht := h.tail_eq
  rw [lastPtr_concat] at ht
  simp [DList.back, ht, Heap.load, hr]

theorem rep_default (mem : Heap T) : Rep mem {} ([] : List (Nat × T)) :=
  ⟨rfl, rfl, rfl, by simp [SIZE_MOD]⟩

theorem runPushes_rep : ∀ (ops : List (PushOp T)) (mem : Heap T) (l : DList)
    (ns : List (Nat × T)), Rep mem l ns → ns.length + ops.length < SIZE_MOD →
    ∃ mem2 l2 ns2, runPushes ops mem l = .ok (mem2, l2) ∧ Rep mem2 l2 ns2 ∧
      values ns2 = pushModel ops (values ns) ∧ ns2.length = ns.length + ops.length
  | [], mem, l, ns, h, _ => ⟨mem, l, ns, rfl, h, rfl, rfl⟩
  | .front v :: ops, mem, l, ns, h, hlen => by
    simp only [List.length_cons] at hlen
    obtain ⟨mem1, l1, hrun, hrep⟩ := push_front_rep v h (by omega)
    obtain ⟨mem2, l2, ns2, hrun2, hrep2, hval, hl⟩ :=
      runPushes_rep ops mem1 l1 _ hrep (by simp only [List.length_cons]; omega)
    refine ⟨mem2, l2, ns2, ?_, hrep2, ?_, ?_⟩
    · simp only [runPushes, PushOp.run, hrun, hrun2]
    · rw [hval]; simp [pushModel, values]
    · rw [hl]; simp only [List.length_cons]; omega
  | .back v :: ops, mem, l, ns, h, hlen => by
    simp only [List.length_cons] at hlen
    obtain ⟨mem1, l1, hrun, hrep⟩ := push_back_rep v h (by omega)
    obtain ⟨mem2, l2, ns2, hrun2, hrep2, hval, hl⟩ :=
      runPushes_rep ops mem1 l1 _ hrep
        (by simp only [List.length_append, List.length_singleton]; omega)
    refine ⟨mem2, l2, ns2, ?_, hrep2, ?_, ?_⟩
    · simp only [runPushes, PushOp.run, hrun, hrun2]
    · rw [hval]; simp [pushModel, values]
    · rw [hl]; simp only [List.length_append, List.length_cons, List.length_nil]; omega

end PushFacts

/-! ## The loops of `clear` and `reverse` on a chain -/

section LoopFacts

variable {T : Type}

theorem prevOf_none (ms : List (Nat × T)) : prevOf none ms = lastPtr ms := by
  unfold prevOf
  cases lastPtr ms <;> rfl

theorem prevOf_cons (pv : Ptr) (a : Nat) (x : T) (ms : List (Nat × T)) :
    prevOf pv ((a, x) :: ms) = prevOf (some a) ms := by
  cases ms with
  | nil => simp [prevOf, lastPtr]
  | cons b ks =>
    obtain ⟨t, ht⟩ : ∃ t, lastPtr (b :: ks) = some t := by
      cases hl : (b :: ks).getLast? with
      | none => simp at hl
      | some c => exact ⟨c.1, by simp [lastPtr, hl]⟩
    simp [prevOf, lastPtr_cons_cons, ht]

theorem Seg.snoc_inv {mem : Heap T} : ∀ {ms : List (Nat × T)} {pv p q : Ptr} {t : Nat} {y : T},
    Seg mem pv p (ms ++ [(t, y)]) q →
    Seg mem pv p ms (some t) ∧ mem.read t = some ⟨y, q, prevOf pv ms⟩
  | [], pv, p, q, t, y, h => by
    obtain ⟨hp, nx, hr, hq⟩ := h
    have : nx = q := hq
    subst this
    exact ⟨hp, hr⟩
  | (a, x) :: ms, pv, p, q, t, y, h => by
    obtain ⟨hp, nx, hr, hs⟩ := h
    obtain ⟨hseg, hrt⟩ := Seg.snoc_inv hs
    refine ⟨⟨hp, nx, hr, hseg⟩, ?_⟩
    rw [prevOf_cons]
    exact hrt

theorem clear_loop_seg : ∀ (ns : List (Nat × T)) (mem : Heap T) (pv p : Ptr) (fuel : Nat),
    Seg mem pv p ns none → ns.length < fuel →
    ∃ mem2, DList.clear_loop fuel mem p p = .ok (mem2, none) ∧
      (∀ a ∈ ns.map Prod.fst, mem2.read a = none) ∧
      (∀ a, a ∉ ns.map Prod.fst → mem2.read a = mem.read a) ∧
      mem2.cells.length = mem.cells.length
  | _, _, _, _, 0, _, hf => by omega
  | [], mem, _, p, fuel + 1, h, _ => by
    have : p = none := h
    subst this
    exact ⟨mem, rfl, by simp, fun _ _ => rfl, rfl⟩
  | (a, x) :: ns, mem, pv, p, fuel + 1, h, hf => by
    have hnd := Seg.nodup h
    obtain ⟨hp, nx, hr, hs⟩ := h
    subst hp
    rw [List.map_cons, List.nodup_cons] at hnd
    have hs2 : Seg (mem.write a none) (some a) nx ns none :=
      Seg.frame (fun b hb => Heap.read_write_other _ _ (fun e => hnd.1 (e ▸ hb))) hs
    obtain ⟨mem2, hrun, hdead, hframe, hlen⟩ :=
      clear_loop_seg ns (mem.write a none) (some a) nx fuel hs2 (by simpa using hf)
    refine ⟨mem2, ?_, ?_, ?_, ?_⟩
    · simp [DList.clear_loop, Heap.load, hr, Heap.delete, hrun, bind, Except.bind]
    · intro b hb
      simp only [List.map_cons, List.mem_cons] at hb
      rcases hb with rfl | hb
      · rw [hframe b hnd.1, Heap.read_write_same _ hr]
      · exact hdead b hb
    · intro b hb
      simp only [List.map_cons, List.mem_cons, not_or] at hb
      rw [hframe b hb.2, Heap.read_write_other _ _ hb.1]
    · rw [hlen, Heap.write_length]

theorem reverse_loop_chain {mem : Heap T} {p : Ptr} : ∀ (n : Nat) (pre : List (Nat × T))
    (q : Ptr) (mem1 : Heap T) (fuel : Nat), pre.length = n →
    Seg mem none p pre q → (pre.map Prod.fst).Nodup →
    (∀ a ∈ pre.map Prod.fst, mem1.read a = mem.read a) → pre.length < fuel →
    ∃ mem2, DList.reverse_loop fuel mem1 (lastPtr pre) = .ok mem2 ∧
      (∀ a ∈ pre.map Prod.fst, ∃ nd, mem.read a = some nd ∧
        mem2.read a = some ⟨nd.data, nd.prev, nd.next⟩) ∧
      (∀ a, a ∉ pre.map Prod.fst → mem2.read a = mem1.read a) ∧
      mem2.cells.length = mem1.cells.length
  | _, _, _, _, 0, _, _, _, _, hf => by omega
  | 0, pre, q, mem1, fuel + 1, hn, _, _, _, _ => by
    have hpre : pre = [] := List.length_eq_zero.mp hn
    subst hpre
    exact ⟨mem1, rfl, by simp, fun _ _ => rfl, rfl⟩
  | n + 1, pre, q, mem1, fuel + 1, hn, hseg, hnd, hsame, hf => by
    rcases List.eq_nil_or_concat pre with hnil | ⟨ms, ⟨t, y⟩, hcat⟩
    · rw [hnil] at hn; simp at hn
    · rw [List.concat_eq_append] at hcat
      subst hcat
      obtain ⟨hseg1, hrt⟩ := Seg.snoc_inv hseg
      rw [prevOf_none] at hrt
      simp only [List.map_append, List.map_cons, List.map_nil] at hnd hsame
      have hnd1 : (ms.map Prod.fst).Nodup := (List.nodup_append.mp hnd).1
      have htms : t ∉ ms.map Prod.fst := by
        intro hmem
        exact (List.nodup_append.mp hnd).2.2 hmem (by simp) 
      have hr1 : mem1.read t = some ⟨y, q, lastPtr ms⟩ := by
        rw [hsame t (by simp)]; exact hrt
      have hlen1 : ms.length = n := by
        simp only [List.length_append, List.length_singleton] at hn; omega
      obtain ⟨mem2, hrun, hsw, hframe, hlen⟩ :=
        reverse_loop_chain n ms (some t) (mem1.write t (some ⟨y, lastPtr ms, q⟩)) fuel hlen1
          hseg1 hnd1
          (fun a ha => by
            have hat : a ≠ t := fun e => htms (e ▸ ha)
            rw [Heap.read_write_other _ _ hat]
            exact hsame a (by simp [ha]))
          (by simp only [List.length_append, List.length_singleton] at hf; omega)
      refine ⟨mem2, ?_, ?_, ?_, ?_⟩
      · rw [lastPtr_concat]
        simp [DList.reverse_loop, Heap.swapLinks, hr1, Heap.load, Heap.read_write_same _ hr1,
          hrun, bind, Except.bind]
      · intro a ha
        simp only [List.map_append, List.map_cons, List.map_nil, List.mem_append,
          List.mem_singleton] at ha
        rcases ha with ha | rfl
        · exact hsw a ha
        · refine ⟨_, hrt, ?_⟩
          rw [hframe a htms, Heap.read_write_same _ hr1]
      · intro a ha
        simp only [List.map_append, List.map_cons, List.map_nil, List.mem_append,
          List.mem_singleton, not_or] at ha
        rw [hframe a ha.1, Heap.read_write_other _ _ ha.2]
      · rw [hlen, Heap.write_length]

theorem clear_of_empty (fuel : Nat) (mem : Heap T) (l : DList) (h : l.empty = true) :
    l.clear fuel mem = .ok (mem, l) := by
  simp [DList.clear, h, pure, Except.pure]

theorem clear_rep {mem : Heap T} {l : DList} {ns : List (Nat × T)} (h : Rep mem l ns)
    (fuel : Nat) (hf : ns.length < fuel) :
    ∃ mem2, l.clear fuel mem = .ok (mem2, { head := none, tail := l.tail, _size := 0 }) ∧
      (∀ a ∈ ns.map Prod.fst, mem2.read a = none) ∧
      (∀ a, a ∉ ns.map Prod.fst → mem2.read a = mem.read a) ∧
      mem2.cells.length = mem.cells.length := by
  obtain ⟨hc, _, hs, _⟩ := h
  cases ns with
  | nil =>
    have hh : l.head = none := hc
    simp only [List.length_nil] at hs
    refine ⟨mem, ?_, by simp, fun _ _ => rfl, rfl⟩
    rw [clear_of_empty fuel mem l (by simp [DList.empty, hs])]
    cases l
    simp only at hh hs
    rw [hh, hs]
  | cons n0 ms =>
    obtain ⟨a, x⟩ := n0
    have hh : l.head = some a := hc.1
    simp only [List.length_cons] at hs
    obtain ⟨mem2, hrun, hdead, hframe, hlen⟩ := clear_loop_seg _ mem none l.head fuel hc hf
    refine ⟨mem2, ?_, hdead, hframe, hlen⟩
    simp [DList.clear, DList.empty, hs, hh, bind, Except.bind, pure, Except.pure]
    rw [hh] at hrun
    simp [hrun]

theorem Seg.next_prev {mem : Heap T} : ∀ {ns : List (Nat × T)} {pv p : Ptr},
    Seg mem pv p ns none → ∀ a ∈ ns.map Prod.fst, ∀ nd, mem.read a = some nd →
    ∀ b, nd.next = some b → ∃ nd2, mem.read b = some nd2 ∧ nd2.prev = some a
  | [], _, _, _, a, ha, _, _, _, _ => by simp at ha
  | (a0, x) :: rest, pv, p, h, a, ha, nd, hnd, b, hb => by
    obtain ⟨_, nx, hr, hs⟩ := h
    simp only [List.map_cons, List.mem_cons] at ha
    rcases ha with rfl | ha
    · rw [hr] at hnd
      cases hnd
      simp only at hb
      subst hb
      cases rest with
      | nil =>
        have : (some b : Ptr) = none := hs
        cases this
      | cons n1 ks =>
        obtain ⟨b1, y⟩ := n1
        obtain ⟨hb1, nx1, hr1, _⟩ := hs
        cases hb1
        exact ⟨_, hr1, rfl⟩
    · exact Seg.next_prev hs a ha nd hnd b hb

theorem Seg.prev_next {mem : Heap T} : ∀ {ns : List (Nat × T)} {pv p q : Ptr},
    Seg mem pv p ns q → ∀ a ∈ ns.map Prod.fst, ∀ nd, mem.read a = some nd →
    ∀ b, nd.prev = some b →
    (pv = some b ∧ p = some a) ∨ ∃ nd2, mem.read b = some nd2 ∧ nd2.next = some a
  | [], _, _, _, _, a, ha, _, _, _, _ => by simp at ha
  | (a0, x) :: rest, pv, p, q, h, a, ha, nd, hnd, b, hb => by
    obtain ⟨hp, nx, hr, hs⟩ := h
    simp only [List.map_cons, List.mem_cons] at ha
    rcases ha with rfl | ha
    · rw [hr] at hnd
      cases hnd
      exact Or.inl ⟨hb, hp⟩
    · rcases Seg.prev_next hs a ha nd hnd b hb with ⟨hpb, hnx⟩ | hright
      · cases hpb
        exact Or.inr ⟨_, hr, hnx⟩
      · exact Or.inr hright

/-- A list that satisfies `Rep` satisfies the invariants as the specification words
them: (a) `_size` is 0 exactly when `head` and `tail` are both `nullptr`; (b) for every
node `n` of the chain with a non-null `next`, `n.next->prev` is `n`, and likewise for
`prev`; (c) `head->prev` and `tail->next` are `nullptr`; (d) `_size` is the number of
nodes met by walking `next` from `head`. -/
theorem Rep.spec_invariants {mem : Heap T} {l : DList} {ns : List (Nat × T)}
    (h : Rep mem l ns) :
    (l._size = 0 ↔ l.head = none ∧ l.tail = none) ∧
    (∀ a ∈ ns.map Prod.fst, ∀ nd, mem.read a = some nd →
      (∀ b, nd.next = some b → ∃ nd2, mem.read b = some nd2 ∧ nd2.prev = some a) ∧
      (∀ b, nd.prev = some b → ∃ nd2, mem.read b = some nd2 ∧ nd2.next = some a)) ∧
    (∀ nd, mem.load l.head = .ok nd → nd.prev = none) ∧
    (∀ nd, mem.load l.tail = .ok nd → nd.next = none) ∧
    (l._size = ns.length ∧ ∀ fuel, ns.length < fuel → l.toList fuel mem = .ok (values ns)) := by
  refine ⟨?_, ?_, ?_, ?_, h.size_eq, fun fuel hf => traverse_seg fuel h.chain hf⟩
  · cases ns with
    | nil =>
      have hh : l.head = none := h.chain
      have ht : l.tail = none := h.tail_eq
      have hs : l._size = 0 := h.size_eq
      simp [hh, ht, hs]
    | cons n0 ms =>
      have hh : l.head = some n0.1 := h.chain.1
      have hs := h.size_eq
      simp only [List.length_cons] at hs
      simp [hh, hs]
  · intro a ha nd hnd
    refine ⟨Seg.next_prev h.chain a ha nd hnd, ?_⟩
    intro b hb
    rcases Seg.prev_next h.chain a ha nd hnd b hb with ⟨hpb, _⟩ | hright
    · cases hpb
    · exact hright
  · intro nd hnd
    cases ns with
    | nil =>
      have hh : l.head = none := h.chain
      rw [hh] at hnd
      cases hnd
    | cons n0 ms =>
      obtain ⟨a, x⟩ := n0
      obtain ⟨hh, nx, hr, _⟩ := h.chain
      rw [hh] at hnd
      simp only [Heap.load, hr] at hnd
      cases hnd
      rfl
  · intro nd hnd
    rcases List.eq_nil_or_concat ns with hnil | ⟨ms, ⟨t, y⟩, hcat⟩
    · have ht := h.tail_eq
      rw [hnil] at ht
      have ht2 : l.tail = none := ht
      rw [ht2] at hnd
      cases hnd
    · rw [List.concat_eq_append] at hcat
      subst hcat
      obtain ⟨pv2, hr⟩ := h.chain.read_last
      have ht := h.tail_eq
      rw [lastPtr_concat] at ht
      rw [ht] at hnd
      simp only [Heap.load, hr] at hnd
      cases hnd
      rfl

end LoopFacts

/-! ## The claims -/

section Claims

variable {T : Type}

/-- C1: from a default-constructed list, any sequence of `push_front` / `push_back`
calls (fewer than the range of `std::size_t`) runs without fault; afterwards `size()`
is the number of calls, the traversal from `begin()` to `end()` is the sequence got
by prepending each `push_front` value and appending each `push_back` value, and
when at least one push occurred `front()` and `back()` return its first and last
element. -/
theorem C1_push_sequence (mem : Heap T) (ops : List (PushOp T))
    (hlen : ops.length < SIZE_MOD) :
    ∃ mem2 l2, runPushes ops mem {} = .ok (mem2, l2) ∧
      l2.size = ops.length ∧
      (∀ fuel, ops.length < fuel → l2.toList fuel mem2 = .ok (pushModel ops [])) ∧
      (ops ≠ [] → ∃ x y, (pushModel ops []).head? = some x ∧
        (pushModel ops []).getLast? = some y ∧
        l2.front mem2 = .ok x ∧ l2.back mem2 = .ok y) := by
  obtain ⟨mem2, l2, ns2, hrun, hrep, hval, hl⟩ :=
    runPushes_rep ops mem {} [] (rep_default mem) (by simpa using hlen)
  simp only [List.length_nil, Nat.zero_add] at hl
  have hv : values ([] : List (Nat × T)) = [] := rfl
  rw [hv] at hval
  refine ⟨mem2, l2, hrun, ?_, ?_, ?_⟩
  · rw [DList.size, hrep.size_eq, hl]
  · intro fuel hf
    rw [← hval]
    exact toList_rep hrep fuel (by omega)
  · intro hne
    have hpos : ns2 ≠ [] := by
      intro e
      rw [e] at hl
      exact hne (List.length_eq_zero.mp hl.symm)
    rw [← hval]
    obtain ⟨⟨a, x⟩, ms, hcons⟩ := List.exists_cons_of_ne_nil hpos
    rcases List.eq_nil_or_concat ns2 with e | ⟨ks, ⟨t, y⟩, hsnoc⟩
    · exact absurd e hpos
    · rw [List.concat_eq_append] at hsnoc
      refine ⟨x, y, ?_, ?_, ?_, ?_⟩
      · rw [hcons]; rfl
      · rw [hsnoc]; simp [values]
      · rw [hcons] at hrep; exact front_rep hrep
      · rw [hsnoc] at hrep; exact back_rep hrep

/-- C1, at the spec's scenario 1: `push_back(1)`, `push_back(2)`, `push_back(3)` on an
empty list in an empty heap. -/
theorem C1_push_sequence_witness :
    [PushOp.back 1, PushOp.back 2, PushOp.back 3].length < SIZE_MOD ∧
    ∃ mem2 l2, runPushes [PushOp.back 1, PushOp.back 2, PushOp.back 3] (⟨[]⟩ : Heap Nat) {}
        = .ok (mem2, l2) ∧
      l2.size = [PushOp.back 1, PushOp.back 2, PushOp.back 3].length ∧
      (∀ fuel, [PushOp.back 1, PushOp.back 2, PushOp.back 3].length < fuel →
        l2.toList fuel mem2 = .ok (pushModel [PushOp.back 1, PushOp.back 2, PushOp.back 3] [])) ∧
      ([PushOp.back 1, PushOp.back 2, PushOp.back 3] ≠ [] → ∃ x y,
        (pushModel [PushOp.back 1, PushOp.back 2, PushOp.back 3] []).head? = some x ∧
        (pushModel [PushOp.back 1, PushOp.back 2, PushOp.back 3] []).getLast? = some y ∧
        l2.front mem2 = .ok x ∧ l2.back mem2 = .ok y) :=
  ⟨by decide, C1_push_sequence ⟨[]⟩ [PushOp.back 1, PushOp.back 2, PushOp.back 3] (by decide)⟩

theorem scenario_lists_built :
    runPushes [PushOp.back 1, PushOp.back 2, PushOp.back 3] (⟨[]⟩ : Heap Nat) {}
        = .ok (mem123, list123) ∧
      runPushes [PushOp.back 1, PushOp.back 2] (⟨[]⟩ : Heap Nat) {} = .ok (mem12, list12) ∧
      runPushes [PushOp.back 1] (⟨[]⟩ : Heap Nat) {} = .ok (mem1, list1) := by
  refine ⟨?_, ?_, ?_⟩ <;> rfl

theorem rep_list123 : Rep mem123 list123 [(0, 1), (1, 2), (2, 3)] :=
  ⟨⟨rfl, some 1, rfl, rfl, some 2, rfl, rfl, none, rfl, rfl⟩, rfl, rfl, by decide⟩

theorem rep_list12 : Rep mem12 list12 [(0, 1), (1, 2)] :=
  ⟨⟨rfl, some 1, rfl, rfl, none, rfl, rfl⟩, rfl, rfl, by decide⟩

theorem rep_list1 : Rep mem1 list1 [(0, 1)] :=
  ⟨⟨rfl, none, rfl, rfl⟩, rfl, rfl, by decide⟩

/-- C2 (the code departs from it): on a default-constructed list in any heap,
`insert(begin(), v)` takes the branch `pos->curr == head` and dereferences the null
`head` in `head->prev = n`; it does not produce the one-element list. -/
theorem C2_insert_empty_null_deref (mem : Heap T) (v : T) :
    DList.insert mem {} (DList.begin {}) v = .error .nullDeref := by
  have hr1 : Heap.read ⟨mem.cells ++ [some { data := v }]⟩ mem.cells.length
      = some { data := v } := by
    rw [Heap.read_push]; simp
  simp [DList.insert, DList.begin, Heap.alloc, Heap.setNext, Heap.setPrev, hr1, bind,
    Except.bind]

/-- C3 (the code departs from it): on every one-element list satisfying the
invariants, `erase(begin())` takes the branch `pos->curr == tail` and dereferences the
null `prev` in `prev->next = nullptr`; it does not produce the empty list. -/
theorem C3_erase_singleton_null_deref (mem : Heap T) (l : DList) (a : Nat) (x : T)
    (h : Rep mem l [(a, x)]) : l.erase mem l.begin = .error .nullDeref := by
  obtain ⟨hh, nx, hr, hnx⟩ := h.chain
  have ht : l.tail = some a := h.tail_eq
  simp [DList.erase, DList.begin, hh, ht, Heap.load, hr, Heap.setNext, bind, Except.bind]

/-- C3, at the list `[1]`. -/
theorem C3_erase_singleton_null_deref_witness :
    Rep mem1 list1 [(0, 1)] ∧ list1.erase mem1 list1.begin = .error .nullDeref :=
  ⟨⟨⟨rfl, none, rfl, rfl⟩, rfl, rfl, by decide⟩,
    C3_erase_singleton_null_deref mem1 list1 0 1 ⟨⟨rfl, none, rfl, rfl⟩, rfl, rfl, by decide⟩⟩

/-- C4 (the code departs from it): on the list `[1, 2, 3]`, `reverse()` swaps the links
of every node but leaves `head` and `tail` where they were, so the traversal from
`begin()` yields `[1]`, `front()` is still `1` and `back()` is still `3`. -/
theorem C4_reverse_keeps_head_tail :
    ∃ mem2 l2, list123.reverse 4 mem123 = .ok (mem2, l2) ∧
      l2.head = list123.head ∧ l2.tail = list123.tail ∧
      l2.toList 4 mem2 = .ok [1] ∧ l2.front mem2 = .ok 1 ∧ l2.back mem2 = .ok 3 :=
  ⟨⟨[some ⟨1, none, some 1⟩, some ⟨2, some 0, some 2⟩, some ⟨3, some 1, none⟩]⟩, list123,
    rfl, rfl, rfl, rfl, rfl, rfl⟩

/-- C5: on every non-empty list satisfying the invariants, whose chain is a node
holding `x` followed by `ns`, `pop_front()` returns; afterwards the traversal from
`begin()` to `end()` is the values of `ns`, `size()` is the length of `ns`, and if `ns`
is empty then `head` and `tail` are both `nullptr` and `_size` is 0. -/
theorem C5_pop_front (mem : Heap T) (l : DList) (a : Nat) (x : T) (ns : List (Nat × T))
    (h : Rep mem l ((a, x) :: ns)) :
    ∃ mem2 l2, l.pop_front mem = .ok (mem2, l2) ∧
      (∀ fuel, ns.length < fuel → l2.toList fuel mem2 = .ok (values ns)) ∧
      l2.size = ns.length ∧
      (ns = [] → l2.head = none ∧ l2.tail = none ∧ l2._size = 0) := by
  obtain ⟨hc, ht, hs, hlt⟩ := h
  have hnd := Seg.nodup hc
  obtain ⟨hh, nx, hr, hseg⟩ := hc
  simp only [List.length_cons] at hs hlt
  have hsz : (ns.length + 1 + SIZE_MOD - 1) % SIZE_MOD = ns.length := by
    have : ns.length + 1 + SIZE_MOD - 1 = ns.length + SIZE_MOD := by omega
    rw [this, Nat.add_mod_right]
    exact Nat.mod_eq_of_lt (by omega)
  rw [List.map_cons, List.nodup_cons] at hnd
  have hseg2 : Seg (mem.write a none) (some a) nx ns none := by
    refine Seg.frame (fun b hb => ?_) hseg
    exact Heap.read_write_other _ _ (fun e => hnd.1 (e ▸ hb))
  cases ns with
  | nil =>
    have hnx : nx = none := hseg
    subst hnx
    simp [DList.pop_front, hh, Heap.load, hr, Heap.delete, hs, hsz, DList.empty, bind,
      Except.bind, pure, Except.pure]
    refine ⟨_, _, ⟨rfl, rfl⟩, ?_, rfl, rfl, rfl, rfl⟩
    intro fuel hf
    exact traverse_seg fuel hseg2 hf
  | cons n1 ms =>
    obtain ⟨b, y⟩ := n1
    have hnx : nx = some b := hseg.1
    subst hnx
    simp only [List.length_cons] at hsz hlt
    have hmod : (ms.length + 1) % SIZE_MOD = ms.length + 1 :=
      Nat.mod_eq_of_lt (by omega)
    simp [DList.pop_front, hh, Heap.load, hr, Heap.delete, hs, hsz, hmod, DList.empty, bind,
      Except.bind, pure, Except.pure]
    refine ⟨_, _, ⟨rfl, rfl⟩, ?_, rfl⟩
    intro fuel hf
    exact traverse_seg fuel hseg2 (by simpa using hf)

/-- C5, at the list `[1, 2]`. -/
theorem C5_pop_front_witness :
    Rep mem12 list12 [(0, 1), (1, 2)] ∧
    ∃ mem2 l2, list12.pop_front mem12 = .ok (mem2, l2) ∧
      (∀ fuel, [(1, 2)].length < fuel → l2.toList fuel mem2 = .ok (values [(1, 2)])) ∧
      l2.size = [(1, 2)].length ∧
      ([(1, 2)] = [] → l2.head = none ∧ l2.tail = none ∧ l2._size = 0) :=
  ⟨⟨⟨rfl, some 1, rfl, rfl, none, rfl, rfl⟩, rfl, rfl, by decide⟩,
    C5_pop_front mem12 list12 0 1 [(1, 2)]
      ⟨⟨rfl, some 1, rfl, rfl, none, rfl, rfl⟩, rfl, rfl, by decide⟩⟩

theorem Iterator.ne_diverges : ∀ (fuel : Nat) (a b : Iterator),
    Iterator.ne fuel a b = .error .diverged
  | 0, _, _ => rfl
  | fuel + 1, a, b => by
    simp only [Iterator.ne, Iterator.ne_diverges fuel a b]

/-- C6 (the code departs from it): on the list `[1, 2]`, `pop_back()` deletes the
tail node and moves `tail` to its predecessor but leaves that node's `next` pointing at
the deleted node; `size()` is 1 and `back()` is 1, yet the walk from `begin()` follows
the stale `next` into the deleted node instead of ending after `[1]`. -/
theorem C6_pop_back_leaves_stale_next :
    ∃ mem2 l2, list12.pop_back mem12 = .ok (mem2, l2) ∧
      l2.size = 1 ∧ l2.back mem2 = .ok 1 ∧
      (∃ nd, mem2.load l2.tail = .ok nd ∧ nd.next = some 1) ∧
      mem2.read 1 = none ∧
      ∀ fuel, l2.toList (fuel + 2) mem2 = .error .dangling := by
  refine ⟨⟨[some ⟨1, some 1, none⟩, none]⟩, ⟨some 0, some 0, 1⟩, rfl, rfl, rfl,
    ⟨_, rfl, rfl⟩, rfl, ?_⟩
  intro fuel
  rfl

/-- C7 (the code departs from it): `erase(first, last)` never returns, whatever the
list and the cursors, because its loop condition `first != last` calls
`Iterator::operator!=`, which calls itself without end. -/
theorem C7_erase_range_diverges (fuel : Nat) (mem : Heap T) (l : DList)
    (first last : Iterator) : l.erase_range fuel mem first last = .error .diverged := by
  cases fuel with
  | zero => rfl
  | succ n => simp [DList.erase_range, Iterator.ne_diverges, bind, Except.bind]

/-- C8 (the code departs from it): on the list `[1, 2, 3]`, `clear()` deletes the three
nodes and sets `head` to `nullptr` and `_size` to 0 but never assigns `tail`, which
still holds the address of the deleted last node. -/
theorem C8_clear_keeps_tail :
    ∃ mem2 l2, list123.clear 4 mem123 = .ok (mem2, l2) ∧
      l2.head = none ∧ l2.size = 0 ∧ l2.empty = true ∧
      l2.tail = some 2 ∧ mem2.read 2 = none :=
  ⟨⟨[none, none, none]⟩, ⟨none, some 2, 0⟩, rfl, rfl, rfl, rfl, rfl, rfl⟩

/-- C9 (the code departs from it): neither the copy constructor nor the copy
assignment returns, whatever the source list, because the copy loop tests
`it != other.end()` and `Iterator::operator!=` calls itself without end. -/
theorem C9_copy_diverges (fuel : Nat) (mem : Heap T) (A B : DList) :
    DList.copy_construct fuel mem A = .error .diverged ∧
      DList.copy_assign fuel mem B A = .error .diverged := by
  have h1 : DList.copy_construct fuel mem A = .error .diverged := by
    cases fuel with
    | zero => rfl
    | succ n =>
      simp [DList.copy_construct, DList.copy_loop, Iterator.ne_diverges, bind, Except.bind]
  refine ⟨h1, ?_⟩
  simp [DList.copy_assign, h1, bind, Except.bind]

/-- C10: move-constructing `B` from a list `A` satisfying the invariants gives `B` the
`head`, `tail` and `_size` that were those of `A`, hence in the same, untouched heap the
same chain of nodes, the same `size()` and the same traversal, and leaves `A` with
`head` and `tail` both `nullptr` and `_size` 0, which satisfies the invariants. -/
theorem C10_move_construct (mem : Heap T) (A : DList) (ns : List (Nat × T))
    (h : Rep mem A ns) :
    (DList.move_construct A).1.head = A.head ∧
      (DList.move_construct A).1.tail = A.tail ∧
      (DList.move_construct A).1.size = A.size ∧
      Rep mem (DList.move_construct A).1 ns ∧
      (∀ fuel, ns.length < fuel →
        (DList.move_construct A).1.toList fuel mem = .ok (values ns)) ∧
      (DList.move_construct A).2 = { head := none, tail := none, _size := 0 } ∧
      Rep mem (DList.move_construct A).2 [] := by
  have hB : (DList.move_construct A).1 = A := by
    cases A; rfl
  refine ⟨by rw [hB], by rw [hB], by rw [hB], by rw [hB]; exact h, ?_, rfl, rep_default mem⟩
  intro fuel hf
  rw [hB]
  exact toList_rep h fuel hf

/-- C10, at the list `[1, 2, 3]`. -/
theorem C10_move_construct_witness :
    Rep mem123 list123 [(0, 1), (1, 2), (2, 3)] ∧
    ((DList.move_construct list123).1.head = list123.head ∧
      (DList.move_construct list123).1.tail = list123.tail ∧
      (DList.move_construct list123).1.size = list123.size ∧
      Rep mem123 (DList.move_construct list123).1 [(0, 1), (1, 2), (2, 3)] ∧
      (∀ fuel, [(0, 1), (1, 2), (2, 3)].length < fuel →
        (DList.move_construct list123).1.toList fuel mem123
          = .ok (values [(0, 1), (1, 2), (2, 3)])) ∧
      (DList.move_construct list123).2 = { head := none, tail := none, _size := 0 } ∧
      Rep mem123 (DList.move_construct list123).2 []) :=
  ⟨⟨⟨rfl, some 1, rfl, rfl, some 2, rfl, rfl, none, rfl, rfl⟩, rfl, rfl, by decide⟩,
    C10_move_construct mem123 list123 [(0, 1), (1, 2), (2, 3)]
      ⟨⟨rfl, some 1, rfl, rfl, some 2, rfl, rfl, none, rfl, rfl⟩, rfl, rfl, by decide⟩⟩

/-- C11 (the code departs from it): `a != b` never returns, whatever the two cursors,
because the body of `Iterator::operator!=` is `return !this->operator!=(rhs);`, a call
of itself; so the loop `for(it = begin(); it != end(); ++it)`, as `print()` runs it,
never returns either and visits no element. -/
theorem C11_ne_never_returns (fuel : Nat) (a b : Iterator) (mem : Heap T) (l : DList) :
    Iterator.ne fuel a b = .error .diverged ∧ l.print fuel mem = .error .diverged := by
  refine ⟨?_, ?_⟩
  · induction fuel with
    | zero => rfl
    | succ n ih => simp only [Iterator.ne, ih]
  · cases fuel with
    | zero => rfl
    | succ n =>
      simp [DList.print, DList.print_loop, Iterator.ne_diverges, bind, Except.bind]

/-- C12 (the code departs from it): on the list `[1, 2, 3]`, two calls of `reverse()`
do not restore the traversal.  The first call swaps the links of all three nodes and
leaves `tail` on the node holding 3, whose `next` is now its former `prev`; the second
call starts there again, swaps that one node back and stops at its `nullptr` `next`.
The traversal from `begin()` is `[1]`; `front()` and `back()` are 1 and 3 as before. -/
theorem C12_reverse_twice_not_identity :
    ∃ mem2 l2, list123.reverse_twice 4 mem123 = .ok (mem2, l2) ∧
      l2.toList 4 mem2 = .ok [1] ∧ list123.toList 4 mem123 = .ok [1, 2, 3] ∧
      l2.front mem2 = .ok 1 ∧ l2.back mem2 = .ok 3 ∧
      mem2.read 0 = some ⟨1, none, some 1⟩ ∧ mem2.read 1 = some ⟨2, some 0, some 2⟩ ∧
      mem2.read 2 = some ⟨3, none, some 1⟩ :=
  ⟨⟨[some ⟨1, none, some 1⟩, some ⟨2, some 0, some 2⟩, some ⟨3, none, some 1⟩]⟩, list123,
    rfl, rfl, rfl, rfl, rfl, rfl, rfl, rfl⟩

/-- C13 (the code departs from it): on a default-constructed list in any heap,
`erase(insert(begin(), v))` does not give the empty list back: the inner `insert`
dereferences the null `head` in `head->prev = n` and nothing is returned to erase. -/
theorem C13_erase_insert_empty_null_deref (mem : Heap T) (v : T) :
    DList.erase_insert mem {} (DList.begin {}) v = .error .nullDeref ∧
      DList.erase_insert mem {} (DList.end_ {}) v = .error .nullDeref := by
  have hr1 : Heap.read ⟨mem.cells ++ [some { data := v }]⟩ mem.cells.length
      = some { data := v } := by
    rw [Heap.read_push]; simp
  refine ⟨?_, ?_⟩ <;>
    simp [DList.erase_insert, DList.insert, DList.begin, DList.end_, Heap.alloc,
      Heap.setNext, Heap.setPrev, hr1, bind, Except.bind]

/-- C14 (the code departs from it): on a cursor that references a live node,
`operator*` does not return the element value.  It is declared to return `T&`, but the
operand of its `return` is `*curr`: what the text hands back is the whole node, with
its element and both links, an expression C++ accepts for no `T` as a `T&`, so that
no dereference can succeed.  `print()` reaches the element as `it->data`. -/
theorem C14_deref_returns_node (mem : Heap T) (a : Nat) (nd : ListNode T)
    (h : mem.read a = some nd) :
    Iterator.deref mem { curr := some a } = .ok nd := by
  simp [Iterator.deref, Heap.load, h]

/-- C14, at `begin()` of the list `[1, 2]`: the result is the node holding 1 together
with its links, not the element 1. -/
theorem C14_deref_returns_node_witness :
    mem12.read 0 = some { data := 1, next := some 1, prev := none } ∧
      Iterator.deref mem12 list12.begin = .ok { data := 1, next := some 1, prev := none } :=
  ⟨rfl, C14_deref_returns_node mem12 0 { data := 1, next := some 1, prev := none } rfl⟩

/-- C15 (the code departs from it): move assignment never returns, whatever the two
lists.  Its body `swap(*this, List(other))` copy-constructs a temporary from the named
parameter instead of taking over its nodes, and the copy constructor's loop condition
calls `Iterator::operator!=`, which calls itself without end. -/
theorem C15_move_assign_diverges (fuel : Nat) (mem : Heap T) (B A : DList) :
    DList.move_assign fuel mem B A = .error .diverged := by
  have h1 : DList.copy_construct fuel mem A = .error .diverged := by
    cases fuel with
    | zero => rfl
    | succ n =>
      simp [DList.copy_construct, DList.copy_loop, Iterator.ne_diverges, bind, Except.bind]
  simp [DList.move_assign, h1, bind, Except.bind]

/-- C16: `clear()` on an already-empty list changes nothing.  On a default-constructed
list it returns the heap and the list as they were, with `size() == 0` and `empty()`
true; and on every list satisfying the invariants a first `clear()` returns a list with
`size() == 0` and `empty()` true on which a second `clear()` returns the very same heap
and list. -/
theorem C16_clear_idempotent (mem : Heap T) (l : DList) (ns : List (Nat × T))
    (h : Rep mem l ns) (fuel : Nat) (hf : ns.length < fuel) :
    (∀ fuel0, DList.clear fuel0 mem {} = .ok (mem, {}) ∧
      DList.size {} = 0 ∧ DList.empty {} = true) ∧
    ∃ mem2 l2, l.clear fuel mem = .ok (mem2, l2) ∧ l2.size = 0 ∧ l2.empty = true ∧
      ∀ fuel2, l2.clear fuel2 mem2 = .ok (mem2, l2) := by
  refine ⟨fun fuel0 => ⟨clear_of_empty fuel0 mem {} rfl, rfl, rfl⟩, ?_⟩
  obtain ⟨mem2, hrun, _⟩ := clear_rep h fuel hf
  exact ⟨mem2, _, hrun, rfl, rfl, fun fuel2 => clear_of_empty fuel2 mem2 _ rfl⟩

/-- C16, at the list `[1, 2, 3]`. -/
theorem C16_clear_idempotent_witness :
    Rep mem123 list123 [(0, 1), (1, 2), (2, 3)] ∧ [(0, 1), (1, 2), (2, 3)].length < 4 ∧
    ((∀ fuel0, DList.clear fuel0 mem123 {} = .ok (mem123, {}) ∧
      DList.size {} = 0 ∧ DList.empty {} = true) ∧
    ∃ mem2 l2, list123.clear 4 mem123 = .ok (mem2, l2) ∧ l2.size = 0 ∧ l2.empty = true ∧
      ∀ fuel2, l2.clear fuel2 mem2 = .ok (mem2, l2)) :=
  ⟨⟨⟨rfl, some 1, rfl, rfl, some 2, rfl, rfl, none, rfl, rfl⟩, rfl, rfl, by decide⟩,
    by decide,
    C16_clear_idempotent mem123 list123 [(0, 1), (1, 2), (2, 3)]
      ⟨⟨rfl, some 1, rfl, rfl, some 2, rfl, rfl, none, rfl, rfl⟩, rfl, rfl, by decide⟩
      4 (by decide)⟩

/-- C17 (the code departs from it): on the list `[1, 2]`, `pop_front()` deletes the
head node and leaves the new head's `prev` pointing at it, and `pop_back()` deletes the
tail node and leaves the new tail's `next` pointing at it; neither resulting list
satisfies the invariants, whatever chain is proposed for it. -/
theorem C17_pop_leaves_stale_links :
    (∃ mem2 l2, list12.pop_front mem12 = .ok (mem2, l2) ∧
      (∃ nd, mem2.load l2.head = .ok nd ∧ nd.prev = some 0) ∧ mem2.read 0 = none ∧
      ∀ ns, ¬ Rep mem2 l2 ns) ∧
    (∃ mem2 l2, list12.pop_back mem12 = .ok (mem2, l2) ∧
      (∃ nd, mem2.load l2.tail = .ok nd ∧ nd.next = some 1) ∧ mem2.read 1 = none ∧
      ∀ ns, ¬ Rep mem2 l2 ns) := by
  refine ⟨⟨⟨[none, some ⟨2, none, some 0⟩]⟩, ⟨some 1, some 1, 1⟩, rfl, ⟨_, rfl, rfl⟩, rfl, ?_⟩,
    ⟨⟨[some ⟨1, some 1, none⟩, none]⟩, ⟨some 0, some 0, 1⟩, rfl, ⟨_, rfl, rfl⟩, rfl, ?_⟩⟩
  · intro ns h
    cases ns with
    | nil =>
      have : (some 1 : Ptr) = none := h.chain
      cases this
    | cons n0 ms =>
      obtain ⟨a, x⟩ := n0
      obtain ⟨ha, nx, hr, _⟩ := h.chain
      have ha1 : (some 1 : Ptr) = some a := ha
      cases ha1
      have hr2 : (some (⟨2, none, some 0⟩ : ListNode Nat)) = some ⟨x, nx, none⟩ := hr
      cases hr2
  · intro ns h
    cases ns with
    | nil =>
      have : (some 0 : Ptr) = none := h.chain
      cases this
    | cons n0 ms =>
      obtain ⟨a, x⟩ := n0
      have hsz := h.size_eq
      have hms : ms = [] := by
        have : 1 = ms.length + 1 := hsz
        exact List.length_eq_zero.mp (by omega)
      subst hms
      obtain ⟨ha, nx, hr, hnx⟩ := h.chain
      have ha1 : (some 0 : Ptr) = some a := ha
      cases ha1
      have hr2 : (some (⟨1, some 1, none⟩ : ListNode Nat)) = some ⟨x, nx, none⟩ := hr
      cases hr2
      have : (some 1 : Ptr) = none := hnx
      cases this

/-- C18: on every list satisfying the invariants (with room left in the `std::size_t`
counter), `push_front(v)` and `push_back(v)` each return a list that satisfies the
invariants again: its chain is the old one with the fresh node in front, respectively
at the back. -/
theorem C18_push_preserves_invariants (mem : Heap T) (l : DList) (ns : List (Nat × T))
    (v : T) (h : Rep mem l ns) (hlen : ns.length + 1 < SIZE_MOD) :
    (∃ mem2 l2, l.push_front mem v = .ok (mem2, l2) ∧
      Rep mem2 l2 ((mem.cells.length, v) :: ns)) ∧
    (∃ mem2 l2, l.push_back mem v = .ok (mem2, l2) ∧
      Rep mem2 l2 (ns ++ [(mem.cells.length, v)])) :=
  ⟨push_front_rep v h hlen, push_back_rep v h hlen⟩

/-- C18, at the list `[1, 2]` and the value 7. -/
theorem C18_push_preserves_invariants_witness :
    Rep mem12 list12 [(0, 1), (1, 2)] ∧ [(0, 1), (1, 2)].length + 1 < SIZE_MOD ∧
    ((∃ mem2 l2, list12.push_front mem12 7 = .ok (mem2, l2) ∧
      Rep mem2 l2 ((mem12.cells.length, 7) :: [(0, 1), (1, 2)])) ∧
    (∃ mem2 l2, list12.push_back mem12 7 = .ok (mem2, l2) ∧
      Rep mem2 l2 ([(0, 1), (1, 2)] ++ [(mem12.cells.length, 7)]))) :=
  ⟨⟨⟨rfl, some 1, rfl, rfl, none, rfl, rfl⟩, rfl, rfl, by decide⟩, by decide,
    C18_push_preserves_invariants mem12 list12 [(0, 1), (1, 2)] 7
      ⟨⟨rfl, some 1, rfl, rfl, none, rfl, rfl⟩, rfl, rfl, by decide⟩ (by decide)⟩

/-- C19: on every list satisfying the invariants, `reverse()` returns; afterwards every
node of the chain holds its former `prev` in `next` and its former `next` in `prev`,
with its element unchanged, every other cell of the heap is as it was, no cell was
added, and the list object, hence `size()`, is unchanged.  The nodes of the chain are
pairwise distinct, so each was swapped once. -/
theorem C19_reverse_swaps_every_node (mem : Heap T) (l : DList) (ns : List (Nat × T))
    (h : Rep mem l ns) (fuel : Nat) (hf : ns.length < fuel) :
    ∃ mem2, l.reverse fuel mem = .ok (mem2, l) ∧
      (∀ a ∈ ns.map Prod.fst, ∃ nd, mem.read a = some nd ∧
        mem2.read a = some ⟨nd.data, nd.prev, nd.next⟩) ∧
      (∀ a, a ∉ ns.map Prod.fst → mem2.read a = mem.read a) ∧
      mem2.cells.length = mem.cells.length ∧
      (ns.map Prod.fst).Nodup := by
  obtain ⟨mem2, hrun, hsw, hframe, hlen⟩ :=
    reverse_loop_chain ns.length ns none mem fuel rfl h.chain h.chain.nodup
      (fun _ _ => rfl) hf
  refine ⟨mem2, ?_, hsw, hframe, hlen, h.chain.nodup⟩
  rw [← h.tail_eq] at hrun
  simp [DList.reverse, hrun, bind, Except.bind, pure, Except.pure]

/-- C19, at the list `[1, 2, 3]`. -/
theorem C19_reverse_swaps_every_node_witness :
    Rep mem123 list123 [(0, 1), (1, 2), (2, 3)] ∧ [(0, 1), (1, 2), (2, 3)].length < 4 ∧
    ∃ mem2, list123.reverse 4 mem123 = .ok (mem2, list123) ∧
      (∀ a ∈ [(0, 1), (1, 2), (2, 3)].map Prod.fst, ∃ nd, mem123.read a = some nd ∧
        mem2.read a = some ⟨nd.data, nd.prev, nd.next⟩) ∧
      (∀ a, a ∉ [(0, 1), (1, 2), (2, 3)].map Prod.fst → mem2.read a = mem123.read a) ∧
      mem2.cells.length = mem123.cells.length ∧
      ([(0, 1), (1, 2), (2, 3)].map Prod.fst).Nodup :=
  ⟨⟨⟨rfl, some 1, rfl, rfl, some 2, rfl, rfl, none, rfl, rfl⟩, rfl, rfl, by decide⟩,
    by decide,
    C19_reverse_swaps_every_node mem123 list123 [(0, 1), (1, 2), (2, 3)]
      ⟨⟨rfl, some 1, rfl, rfl, some 2, rfl, rfl, none, rfl, rfl⟩, rfl, rfl, by decide⟩
      4 (by decide)⟩

/-- C20: on every list satisfying the invariants, `clear()`, and the destructor, which
only calls it, return without fault; afterwards no node of the chain is live, every
cell outside the chain is as it was, and no cell was added.  The nodes of the chain
were live and pairwise distinct, and `delete` faults on a node that is not live, so
each was released once. -/
theorem C20_clear_releases_chain (mem : Heap T) (l : DList) (ns : List (Nat × T))
    (h : Rep mem l ns) (fuel : Nat) (hf : ns.length < fuel) :
    ∃ mem2 l2, l.clear fuel mem = .ok (mem2, l2) ∧ l.destroy fuel mem = .ok mem2 ∧
      (∀ a ∈ ns.map Prod.fst, (∃ nd, mem.read a = some nd) ∧ mem2.read a = none) ∧
      (∀ a, a ∉ ns.map Prod.fst → mem2.read a = mem.read a) ∧
      mem2.cells.length = mem.cells.length ∧
      (ns.map Prod.fst).Nodup := by
  obtain ⟨mem2, hrun, hdead, hframe, hlen⟩ := clear_rep h fuel hf
  refine ⟨mem2, _, hrun, ?_, fun a ha => ⟨h.chain.read_mem a ha, hdead a ha⟩, hframe, hlen,
    h.chain.nodup⟩
  simp [DList.destroy, hrun, bind, Except.bind, pure, Except.pure]

/-- C20, at the list `[1, 2, 3]`. -/
theorem C20_clear_releases_chain_witness :
    Rep mem123 list123 [(0, 1), (1, 2), (2, 3)] ∧ [(0, 1), (1, 2), (2, 3)].length < 4 ∧
    ∃ mem2 l2, list123.clear 4 mem123 = .ok (mem2, l2) ∧
      list123.destroy 4 mem123 = .ok mem2 ∧
      (∀ a ∈ [(0, 1), (1, 2), (2, 3)].map Prod.fst,
        (∃ nd, mem123.read a = some nd) ∧ mem2.read a = none) ∧
      (∀ a, a ∉ [(0, 1), (1, 2), (2, 3)].map Prod.fst → mem2.read a = mem123.read a) ∧
      mem2.cells.length = mem123.cells.length ∧
      ([(0, 1), (1, 2), (2, 3)].map Prod.fst).Nodup :=
  ⟨⟨⟨rfl, some 1, rfl, rfl, some 2, rfl, rfl, none, rfl, rfl⟩, rfl, rfl, by decide⟩,
    by decide,
    C20_clear_releases_chain mem123 list123 [(0, 1), (1, 2), (2, 3)]
      ⟨⟨rfl, some 1, rfl, rfl, some 2, rfl, rfl, none, rfl, rfl⟩, rfl, rfl, by decide⟩
      4 (by decide)⟩

end Claims

end ListH
